import Mathlib

/-!
Verification of the go-pg/sharding library: the composite-identifier codec
(IDGen / ShardIDGen), the randomized UUID codec, and the cluster shard
routing logic.

Modelling conventions.

Machine 64-bit integers (Go int64) are modelled as mathematical integers
together with explicit two's-complement wrapping: a value is always kept in
the signed range, and every Go operation that can overflow goes through
wrap64.  Bitwise operations work on the 2^64 bit pattern of the value
(toBits / ofBits below).  Go division and remainder on int64 truncate
toward zero, which is Int.tdiv / Int.tmod; Go arithmetic right shift is
floor division by a power of two.  Shifts by 64 or more places produce 0
(for left shifts) or the sign fill (for arithmetic right shifts), which
wrap64 and floor division reproduce exactly.

Go time.Time instants are modelled by their exact (unbounded) count of
nanoseconds since the Unix epoch: time.Time internally stores 64-bit
seconds plus a nanosecond field, so its representable range vastly exceeds
the int64-nanosecond range; UnixNano, however, wraps, which the model makes
explicit.
-/

/-- Two's-complement wrap of an integer into the signed 64-bit range. -/
def wrap64 (x : Int) : Int := (x + 2 ^ 63) % 2 ^ 64 - 2 ^ 63

/-- Bit pattern (a natural number below 2^64) of a 64-bit integer. -/
def toBits (x : Int) : Nat := (x % 2 ^ 64).toNat

/-- Signed 64-bit value of a bit pattern. -/
def ofBits (n : Nat) : Int := if n < 2 ^ 63 then (n : Int) else (n : Int) - 2 ^ 64

/-- Go left shift on int64 (wrapping). -/
def shl64 (x : Int) (k : Nat) : Int := wrap64 (x * 2 ^ k)

/-- Go arithmetic (sign-propagating) right shift on int64. -/
def sar64 (x : Int) (k : Nat) : Int := Int.fdiv (wrap64 x) (2 ^ k)

/-- Go bitwise or on int64. -/
def or64 (x y : Int) : Int := ofBits (toBits x ||| toBits y)

/-- Go bitwise and on int64. -/
def and64 (x y : Int) : Int := ofBits (toBits x &&& toBits y)

theorem wrap64_emod (x : Int) : wrap64 x % 2 ^ 64 = x % 2 ^ 64 := by
  unfold wrap64; omega

theorem wrap64_eq_self {x : Int} (h1 : -(2 ^ 63) ≤ x) (h2 : x < 2 ^ 63) :
    wrap64 x = x := by
  unfold wrap64; omega

theorem wrap64_lb (x : Int) : -(2 ^ 63) ≤ wrap64 x := by unfold wrap64; omega

theorem wrap64_ub (x : Int) : wrap64 x < 2 ^ 63 := by unfold wrap64; omega

theorem wrap64_congr {x y : Int} (h : x % 2 ^ 64 = y % 2 ^ 64) :
    wrap64 x = wrap64 y := by
  unfold wrap64; omega

theorem ofBits_eq_wrap64 {n : Nat} (h : n < 2 ^ 64) :
    ofBits n = wrap64 (n : Int) := by
  unfold ofBits wrap64; split <;> omega

theorem toBits_lt (x : Int) : toBits x < 2 ^ 64 := by unfold toBits; omega

theorem toBits_wrap64 (x : Int) : toBits (wrap64 x) = toBits x := by
  unfold toBits wrap64; omega

theorem toBits_ofBits {n : Nat} (h : n < 2 ^ 64) : toBits (ofBits n) = n := by
  unfold toBits ofBits; split <;> omega

theorem ofBits_toBits {x : Int} (h1 : -(2 ^ 63) ≤ x) (h2 : x < 2 ^ 63) :
    ofBits (toBits x) = x := by
  unfold toBits ofBits; split <;> omega

theorem toBits_cast (x : Int) : ((toBits x : Nat) : Int) = x % 2 ^ 64 := by
  unfold toBits; omega

theorem toBits_inj {x y : Int} (hx1 : -(2 ^ 63) ≤ x) (hx2 : x < 2 ^ 63)
    (hy1 : -(2 ^ 63) ≤ y) (hy2 : y < 2 ^ 63) (h : toBits x = toBits y) :
    x = y := by
  unfold toBits at h; omega

theorem ofBits_cast {n : Nat} (h : n < 2 ^ 63) : ofBits n = (n : Int) := by
  unfold ofBits; split <;> omega

/-- A bitwise or adds when the operands occupy disjoint bit ranges:
the left operand is zero below bit k, the right operand lives below bit k. -/
theorem nat_lor_eq_add {a b k : Nat} (ha : a % 2 ^ k = 0) (hb : b < 2 ^ k) :
    a ||| b = a + b := by
  have hm : a = 2 ^ k * (a / 2 ^ k) := (Nat.div_mul_cancel (Nat.dvd_of_mod_eq_zero ha)).symm.trans (Nat.mul_comm _ _)
  calc a ||| b = 2 ^ k * (a / 2 ^ k) ||| b := by rw [← hm]
    _ = 2 ^ k * (a / 2 ^ k) + b := (Nat.mul_add_lt_is_or hb _).symm
    _ = a + b := by rw [← hm]

/-- Truncating to the low m bits distributes over bitwise or. -/
theorem nat_lor_mod_two_pow (a b m : Nat) :
    (a ||| b) % 2 ^ m = (a % 2 ^ m) ||| (b % 2 ^ m) := by
  apply Nat.eq_of_testBit_eq
  intro i
  simp only [Nat.testBit_mod_two_pow, Nat.testBit_or, Bool.and_or_distrib_left]

/-- The multiple of 2^k below 2^64 leaves room for anything below 2^k. -/
theorem nat_mult_add_lt {a b k : Nat} (hk : k ≤ 64) (ha : a % 2 ^ k = 0)
    (ha64 : a < 2 ^ 64) (hb : b < 2 ^ k) : a + b < 2 ^ 64 := by
  rcases Nat.eq_or_lt_of_le (Nat.le_of_lt_succ (Nat.lt_succ_of_lt ha64)) with h | _
  · omega
  · have hdvd : 2 ^ k ∣ 2 ^ 64 - a := by
      refine Nat.dvd_sub' (Nat.pow_dvd_pow 2 hk) (Nat.dvd_of_mod_eq_zero ha)
    have hpos : 0 < 2 ^ 64 - a := by omega
    have hle : 2 ^ k ≤ 2 ^ 64 - a := Nat.le_of_dvd hpos hdvd
    omega

/-- Go formulation of the disjoint-or addition fact on int64 values. -/
theorem or64_eq_add {x y : Int} (k : Nat) (hk : k ≤ 64)
    (hx : toBits x % 2 ^ k = 0) (hy0 : 0 ≤ y) (hyk : y < 2 ^ k) :
    or64 x y = wrap64 (x + y) := by
  have hk64 : (2 : Int) ^ k ≤ 2 ^ 64 := by
    exact_mod_cast Nat.pow_le_pow_right (by norm_num) hk
  have hy64 : y < 2 ^ 64 := lt_of_lt_of_le hyk hk64
  have hby : toBits y = y.toNat := by unfold toBits; omega
  have hykn : y.toNat < 2 ^ k := by
    have : ((y.toNat : Nat) : Int) = y := Int.toNat_of_nonneg hy0
    have hk0 : ((2 ^ k : Nat) : Int) = (2 : Int) ^ k := by push_cast; ring
    omega
  have hlor : toBits x ||| toBits y = toBits x + y.toNat := by
    rw [hby]; exact nat_lor_eq_add hx hykn
  have hsum : toBits x + y.toNat < 2 ^ 64 :=
    nat_mult_add_lt hk hx (toBits_lt x) hykn
  rw [or64, hlor, ofBits_eq_wrap64 hsum]
  apply wrap64_congr
  have h1 : ((toBits x + y.toNat : Nat) : Int) = x % 2 ^ 64 + y := by
    push_cast
    rw [toBits_cast]
    omega
  omega

/-- The truncation of a 64-bit value to its low k bits, read back as an
integer, is plain modular reduction. -/
theorem toBits_mod_pow (x : Int) {k : Nat} (hk : k ≤ 64) :
    ((toBits x % 2 ^ k : Nat) : Int) = x % 2 ^ k := by
  have hdvd : ((2 : Int) ^ k) ∣ 2 ^ 64 := pow_dvd_pow 2 hk
  have h1 : ((toBits x % 2 ^ k : Nat) : Int) = (toBits x : Int) % (2 : Int) ^ k := by
    push_cast; ring_nf
  rw [h1, toBits_cast, Int.emod_emod_of_dvd x hdvd]

/-- Masking with 2^k - 1 extracts the low k bits of the pattern. -/
theorem and64_mask (x : Int) {k : Nat} (hk : k ≤ 63) :
    and64 x ((2 : Int) ^ k - 1) = x % 2 ^ k := by
  have hklt : (2 : Int) ^ k ≤ 2 ^ 63 := by
    exact_mod_cast Nat.pow_le_pow_right (by norm_num) hk
  have hmask : toBits ((2 : Int) ^ k - 1) = 2 ^ k - 1 := by
    have : ((2 ^ k - 1 : Nat) : Int) = (2 : Int) ^ k - 1 := by
      push_cast [Nat.one_le_two_pow]; ring
    unfold toBits; omega
  have hland : toBits x &&& toBits ((2 : Int) ^ k - 1) = toBits x % 2 ^ k := by
    rw [hmask]; exact Nat.and_pow_two_sub_one_eq_mod (toBits x) k
  have hlt : toBits x % 2 ^ k < 2 ^ 63 := by
    have h1 : toBits x % 2 ^ k < 2 ^ k := Nat.mod_lt _ (Nat.pos_pow_of_pos k (by norm_num))
    have h2 : (2 : Nat) ^ k ≤ 2 ^ 63 := Nat.pow_le_pow_right (by norm_num) hk
    omega
  rw [and64, hland, ofBits_cast hlt, toBits_mod_pow x (Nat.le_succ_of_le hk)]

/-- A left shift whose exact result fits in the signed range does not wrap. -/
theorem shl64_eq {x : Int} (k : Nat) (h1 : -(2 ^ 63) ≤ x * 2 ^ k)
    (h2 : x * 2 ^ k < 2 ^ 63) : shl64 x k = x * 2 ^ k := by
  rw [shl64, wrap64_eq_self h1 h2]

/-- The pattern of a left shift is zero below bit k. -/
theorem shl64_low_bits (x : Int) {k : Nat} (hk : k ≤ 64) :
    toBits (shl64 x k) % 2 ^ k = 0 := by
  have hdvd : ((2 : Int) ^ k) ∣ 2 ^ 64 := pow_dvd_pow 2 hk
  have h : ((toBits (shl64 x k) % 2 ^ k : Nat) : Int) = 0 := by
    rw [toBits_mod_pow _ hk, shl64, ← Int.emod_emod_of_dvd _ hdvd, wrap64_emod,
      Int.emod_emod_of_dvd _ hdvd, Int.mul_emod_left]
  exact_mod_cast h

/-- Arithmetic right shift of an in-range value is floor division. -/
theorem sar64_eq {x : Int} (k : Nat) (h1 : -(2 ^ 63) ≤ x) (h2 : x < 2 ^ 63) :
    sar64 x k = Int.fdiv x (2 ^ k) := by
  rw [sar64, wrap64_eq_self h1 h2]

/-- Floor division recovers the high part of a two-part decomposition. -/
theorem fdiv_decompose (a r : Int) (k : Nat) (hr0 : 0 ≤ r) (hrk : r < 2 ^ k) :
    Int.fdiv (a * 2 ^ k + r) (2 ^ k) = a := by
  have hpos : (0 : Int) < 2 ^ k := by positivity
  rw [Int.fdiv_eq_ediv _ (le_of_lt hpos), add_comm,
    Int.add_mul_ediv_right _ _ (ne_of_gt hpos), Int.ediv_eq_zero_of_lt hr0 hrk,
    zero_add]

/-- A Go time.Time instant: the exact number of nanoseconds since the Unix
epoch.  time.Time itself stores 64-bit seconds plus a nanosecond field, so
its representable range far exceeds the int64-nanosecond range and no
wrapping occurs at this level; UnixNano wraps (below). -/
structure GoTime where
  nanos : Int
deriving DecidableEq

/-- Go tm.UnixNano: wraps when the instant is outside the int64 range. -/
def unixNano (t : GoTime) : Int := wrap64 t.nanos

/-- Go time.Unix(sec, nsec): exact within time.Time's range. -/
def goUnix (sec nsec : Int) : GoTime := ⟨sec * 1000000000 + nsec⟩

/-- Go t.Before(u): exact comparison of instants. -/
def timeBefore (t u : GoTime) : Prop := t.nanos < u.nanos

instance (t u : GoTime) : Decidable (timeBefore t u) := by
  unfold timeBefore; infer_instance

/-- The configured identifier codec; fields as in the Go struct IDGen
(file uuid_test.go of the repository snapshot: shardBits, seqBits, epoch in
milliseconds, minTime, shardMask, seqMask). -/
structure IDGen where
  shardBits : Nat
  seqBits : Nat
  epoch : Int
  minTime : GoTime
  shardMask : Int
  seqMask : Int
deriving DecidableEq

/-- NewIDGen(timeBits, shardBits, seqBits, epoch).  The source panics when
the three widths do not sum to 64; theorems carry that sum as a hypothesis
instead.  dur models the Go expression
time.Duration(1) << (timeBits-1) * time.Millisecond including the int64
wrap of the duration; for timeBits = 0 the uint shift count underflows to
2^64 - 1 and the Go shift result is 0. -/
def NewIDGen (timeBits shardBits seqBits : Nat) (epoch : GoTime) : IDGen :=
  let dur : Int :=
    wrap64 ((if timeBits = 0 then 0 else shl64 1 (timeBits - 1)) * 1000000)
  { shardBits := shardBits
    seqBits := seqBits
    epoch := Int.tdiv (unixNano epoch) 1000000
    minTime := ⟨epoch.nanos - dur⟩
    shardMask := wrap64 (shl64 1 shardBits - 1)
    seqMask := wrap64 (shl64 1 seqBits - 1) }

/-- IDGen.NumShards: int(g.shardMask) + 1 on a 64-bit platform. -/
def NumShards (g : IDGen) : Int := wrap64 (g.shardMask + 1)

/-- IDGen.MakeID(tm, shard, seq).  Mirrors the source line by line: clamp
to math.MinInt64 for times before minTime, otherwise pack
(millis - epoch) << (shardBits+seqBits) | shard << seqBits
| seq % (seqMask+1) with int64 wrapping semantics. -/
def MakeID (g : IDGen) (tm : GoTime) (shard seq : Int) : Int :=
  if timeBefore tm g.minTime then -(2 ^ 63)
  else
    let id0 := wrap64 (Int.tdiv (unixNano tm) 1000000 - g.epoch)
    let id1 := shl64 id0 (g.shardBits + g.seqBits)
    let id2 := or64 id1 (shl64 shard g.seqBits)
    or64 id2 (Int.tmod seq (wrap64 (g.seqMask + 1)))

/-- IDGen.SplitID(id): unpack milliseconds, shard id and sequence id. -/
def SplitID (g : IDGen) (id : Int) : GoTime × Int × Int :=
  let ms := wrap64 (sar64 id (g.shardBits + g.seqBits) + g.epoch)
  let sec := Int.tdiv ms 1000
  (goUnix sec ((ms - sec * 1000) * 1000000),
   and64 (sar64 id g.seqBits) g.shardMask,
   and64 id g.seqMask)

/-- The package epoch: 2010-01-01 00:00:00 UTC (Unix second 1262304000). -/
def goEpoch : GoTime := ⟨1262304000 * 1000000000⟩

/-- DefaultIDGen = NewIDGen(41, 11, 12, 2010-01-01 UTC). -/
def DefaultIDGen : IDGen := NewIDGen 41 11 12 goEpoch

/-- A per-shard sequential generator (Go struct ShardIDGen). -/
structure ShardIDGen where
  shard : Int
  gen : IDGen

/-- NewShardIDGen(shard, gen) with an explicit generator (the source
substitutes DefaultIDGen for a nil gen): the shard number is reduced with
Go's truncated remainder by gen.NumShards(). -/
def NewShardIDGen (shard : Int) (g : IDGen) : ShardIDGen :=
  ⟨Int.tmod shard (NumShards g), g⟩

/-- Value returned by call number n (counted from 0) of ShardIDGen.NextID
when the calls are serialized: the atomic counter hands seq = n to MakeID;
wrap64 accounts for the int64 counter itself wrapping after 2^63 calls. -/
def nthNextID (g : ShardIDGen) (n : Nat) (tm : GoTime) : Int :=
  MakeID g.gen tm g.shard (wrap64 (n : Int))

/-- Go tm.UnixNano() / int64(time.Millisecond): the millisecond reading the
codec packs (truncated toward zero; wraps outside the int64 range). -/
def goMillis (t : GoTime) : Int := Int.tdiv (unixNano t) 1000000

/-- The Go expression int64(1) << k - 1 for widths up to 63. -/
theorem mask_formula {k : Nat} (hk : k ≤ 63) :
    wrap64 (shl64 1 k - 1) = 2 ^ k - 1 := by
  rcases Nat.lt_or_ge k 63 with h | h
  · have h1 : (2 : Int) ^ k < 2 ^ 63 := by
      have h2 : (2 : Int) ^ k ≤ 2 ^ 62 := by
        exact_mod_cast Nat.pow_le_pow_right (by norm_num) (by omega)
      have : (2 : Int) ^ 62 < 2 ^ 63 := by norm_num
      omega
    have h0 : (0 : Int) < 2 ^ k := by positivity
    rw [shl64, one_mul, wrap64_eq_self (by omega) h1,
      wrap64_eq_self (by omega) (by omega)]
  · have hk63 : k = 63 := by omega
    subst hk63; decide

/-- Go seq % (seqMask + 1) leaves an in-range sequence unchanged, also at
width 63 where seqMask + 1 wraps to the negative minimum. -/
theorem tmod_pow_reduce {q : Int} {k : Nat} (hk : k ≤ 63) (h0 : 0 ≤ q)
    (h1 : q < 2 ^ k) : Int.tmod q (wrap64 (2 ^ k)) = q := by
  rcases Nat.lt_or_ge k 63 with h | h
  · have hlt : (2 : Int) ^ k < 2 ^ 63 := by
      have h2 : (2 : Int) ^ k ≤ 2 ^ 62 := by
        exact_mod_cast Nat.pow_le_pow_right (by norm_num) (by omega)
      have : (2 : Int) ^ 62 < 2 ^ 63 := by norm_num
      omega
    have h0k : (0 : Int) < 2 ^ k := by positivity
    rw [wrap64_eq_self (by omega) hlt]
    exact Int.tmod_eq_of_lt h0 h1
  · have hk63 : k = 63 := by omega
    subst hk63
    have hw : wrap64 ((2 : Int) ^ 63) = -(2 ^ 63) := by decide
    rw [hw, Int.tmod_neg]
    exact Int.tmod_eq_of_lt h0 h1

theorem toBits_mod_eq_zero {x : Int} {k : Nat} (hk : k ≤ 64)
    (h : x % 2 ^ k = 0) : toBits x % 2 ^ k = 0 := by
  have h2 := toBits_mod_pow x hk
  rw [h] at h2
  exact_mod_cast h2

/-- Magnitude bound on the millisecond reading of any int64 instant. -/
theorem goMillis_bound (t : GoTime) :
    -(2 ^ 44) < goMillis t ∧ goMillis t < 2 ^ 44 := by
  have h1 := wrap64_lb t.nanos
  have h2 := wrap64_ub t.nanos
  have h3 : (Int.tdiv (wrap64 t.nanos) 1000000).natAbs
      = (wrap64 t.nanos).natAbs / 1000000 := Int.natAbs_tdiv _ _
  unfold goMillis unixNano
  omega

/-- Field bounds for a packed identifier. -/
theorem packed_bounds {tb sb qb : Nat} (hsum : tb + sb + qb = 64)
    (htb : 1 ≤ tb) {dt s q : Int}
    (hd0 : -(2 ^ (tb - 1)) ≤ dt) (hd1 : dt < 2 ^ (tb - 1))
    (hs0 : 0 ≤ s) (hs1 : s < 2 ^ sb) (hq0 : 0 ≤ q) (hq1 : q < 2 ^ qb) :
    -(2 ^ 63) ≤ dt * 2 ^ (sb + qb) + s * 2 ^ qb + q ∧
      dt * 2 ^ (sb + qb) + s * 2 ^ qb + q < 2 ^ 63 ∧
      0 ≤ s * 2 ^ qb + q ∧ s * 2 ^ qb + q < 2 ^ (sb + qb) := by
  have hK : ((2 : Int) ^ (tb - 1)) * 2 ^ (sb + qb) = 2 ^ 63 := by
    rw [← pow_add]; congr 1; omega
  have hQ : ((2 : Int) ^ sb) * 2 ^ qb = 2 ^ (sb + qb) := by rw [← pow_add]
  have hq2 : (0 : Int) < 2 ^ qb := by positivity
  have hK2 : (0 : Int) < 2 ^ (sb + qb) := by positivity
  have hsq1 : s * 2 ^ qb + q < 2 ^ (sb + qb) := by nlinarith
  have hsq0 : 0 ≤ s * 2 ^ qb + q := by positivity
  refine ⟨by nlinarith, by nlinarith, hsq0, hsq1⟩

theorem newIDGen_shardBits (tb sb qb : Nat) (ep : GoTime) :
    (NewIDGen tb sb qb ep).shardBits = sb := rfl

theorem newIDGen_seqBits (tb sb qb : Nat) (ep : GoTime) :
    (NewIDGen tb sb qb ep).seqBits = qb := rfl

theorem newIDGen_seqMask {qb : Nat} (tb sb : Nat) (ep : GoTime) (hqb : qb ≤ 63) :
    (NewIDGen tb sb qb ep).seqMask = 2 ^ qb - 1 := by
  show wrap64 (shl64 1 qb - 1) = 2 ^ qb - 1
  exact mask_formula hqb

theorem newIDGen_shardMask {sb : Nat} (tb qb : Nat) (ep : GoTime) (hsb : sb ≤ 63) :
    (NewIDGen tb sb qb ep).shardMask = 2 ^ sb - 1 := by
  show wrap64 (shl64 1 sb - 1) = 2 ^ sb - 1
  exact mask_formula hsb

/-- The or-chain of MakeID is plain addition of the three fields when every
field is in range. -/
theorem pack_or {dt s q : Int} {sb qb : Nat} (hK63 : sb + qb ≤ 63)
    (hs0 : 0 ≤ s) (hq0 : 0 ≤ q) (hq1 : q < 2 ^ qb)
    (hsq : s * 2 ^ qb + q < 2 ^ (sb + qb))
    (hdl : -(2 ^ 63) ≤ dt * 2 ^ (sb + qb))
    (hu : dt * 2 ^ (sb + qb) + s * 2 ^ qb + q < 2 ^ 63) :
    or64 (or64 (shl64 dt (sb + qb)) (shl64 s qb)) q
      = dt * 2 ^ (sb + qb) + s * 2 ^ qb + q := by
  have hKle : (2 : Int) ^ (sb + qb) ≤ 2 ^ 63 := by
    exact_mod_cast Nat.pow_le_pow_right (by norm_num) hK63
  have hsv : (0 : Int) ≤ s * 2 ^ qb := by positivity
  have hs2 : s * 2 ^ qb < 2 ^ (sb + qb) := by omega
  have hsl : -(2 ^ 63 : Int) ≤ s * 2 ^ qb := by omega
  have hsu : s * 2 ^ qb < (2 ^ 63 : Int) := by omega
  have h1 : shl64 s qb = s * 2 ^ qb := shl64_eq qb hsl hsu
  have hlow : toBits (shl64 dt (sb + qb)) % 2 ^ (sb + qb) = 0 :=
    @shl64_low_bits dt (sb + qb) (by omega)
  have h2 : or64 (shl64 dt (sb + qb)) (s * 2 ^ qb)
      = wrap64 (shl64 dt (sb + qb) + s * 2 ^ qb) :=
    or64_eq_add (sb + qb) (by omega) hlow hsv hs2
  have h3 : shl64 dt (sb + qb) = dt * 2 ^ (sb + qb) :=
    shl64_eq _ hdl (by omega)
  have hdvd : (dt * 2 ^ (sb + qb) + s * 2 ^ qb) % 2 ^ qb = 0 := by
    have d1 : ((2 : Int) ^ qb) ∣ 2 ^ (sb + qb) := pow_dvd_pow 2 (by omega)
    have d2 : ((2 : Int) ^ qb) ∣ dt * 2 ^ (sb + qb) := Dvd.dvd.mul_left d1 dt
    have d3 : ((2 : Int) ^ qb) ∣ s * 2 ^ qb := dvd_mul_left _ _
    exact Int.emod_eq_zero_of_dvd (dvd_add d2 d3)
  have h4 : or64 (dt * 2 ^ (sb + qb) + s * 2 ^ qb) q
      = wrap64 (dt * 2 ^ (sb + qb) + s * 2 ^ qb + q) :=
    or64_eq_add qb (by omega) (toBits_mod_eq_zero (by omega) hdvd) hq0 hq1
  rw [h1, h2, h3, wrap64_eq_self (by omega) (by omega), h4,
    wrap64_eq_self (by omega) (by omega)]

/-- With all three fields in range, MakeID packs them by plain arithmetic. -/
theorem makeID_eq {tb sb qb : Nat} (ep : GoTime) (hsum : tb + sb + qb = 64)
    (htb : 1 ≤ tb) {shard seq : Int} {tm : GoTime}
    (hs0 : 0 ≤ shard) (hs1 : shard < 2 ^ sb) (hq0 : 0 ≤ seq) (hq1 : seq < 2 ^ qb)
    (hmin : ¬ timeBefore tm (NewIDGen tb sb qb ep).minTime)
    (hd0 : -(2 ^ (tb - 1)) ≤ goMillis tm - (NewIDGen tb sb qb ep).epoch)
    (hd1 : goMillis tm - (NewIDGen tb sb qb ep).epoch < 2 ^ (tb - 1)) :
    MakeID (NewIDGen tb sb qb ep) tm shard seq =
      (goMillis tm - (NewIDGen tb sb qb ep).epoch) * 2 ^ (sb + qb)
        + shard * 2 ^ qb + seq := by
  have hqb63 : qb ≤ 63 := by omega
  have hK63 : sb + qb ≤ 63 := by omega
  obtain ⟨hl, hu, hr0, hr1⟩ := packed_bounds hsum htb hd0 hd1 hs0 hs1 hq0 hq1
  have htble : (2 : Int) ^ (tb - 1) ≤ 2 ^ 63 := by
    exact_mod_cast Nat.pow_le_pow_right (by norm_num) (show tb - 1 ≤ 63 by omega)
  have hKeq : ((2 : Int) ^ (tb - 1)) * 2 ^ (sb + qb) = 2 ^ 63 := by
    rw [← pow_add]; congr 1; omega
  have hKpos : (0 : Int) < 2 ^ (sb + qb) := by positivity
  have hdl : -(2 ^ 63 : Int) ≤ (goMillis tm - (NewIDGen tb sb qb ep).epoch) * 2 ^ (sb + qb) := by
    nlinarith
  have e0 : wrap64 (Int.tdiv (unixNano tm) 1000000 - (NewIDGen tb sb qb ep).epoch)
      = goMillis tm - (NewIDGen tb sb qb ep).epoch := by
    show wrap64 (goMillis tm - (NewIDGen tb sb qb ep).epoch) = _
    exact wrap64_eq_self (by omega) (by omega)
  have e5 : Int.tmod seq (wrap64 ((NewIDGen tb sb qb ep).seqMask + 1)) = seq := by
    rw [newIDGen_seqMask tb sb ep hqb63, sub_add_cancel]
    exact tmod_pow_reduce hqb63 hq0 hq1
  unfold MakeID
  rw [if_neg hmin]
  dsimp only
  rw [newIDGen_shardBits, newIDGen_seqBits, e0, e5]
  exact pack_or hK63 hs0 hq0 hq1 hr1 hdl hu

/-- SplitID recovers the three fields of an arithmetically packed id. -/
theorem splitID_eq {tb sb qb : Nat} (ep : GoTime) (hsum : tb + sb + qb = 64)
    (htb : 1 ≤ tb) {dt s q : Int}
    (hd0 : -(2 ^ (tb - 1)) ≤ dt) (hd1 : dt < 2 ^ (tb - 1))
    (hs0 : 0 ≤ s) (hs1 : s < 2 ^ sb) (hq0 : 0 ≤ q) (hq1 : q < 2 ^ qb)
    (hms0 : -(2 ^ 63) ≤ dt + (NewIDGen tb sb qb ep).epoch)
    (hms1 : dt + (NewIDGen tb sb qb ep).epoch < 2 ^ 63) :
    SplitID (NewIDGen tb sb qb ep) (dt * 2 ^ (sb + qb) + s * 2 ^ qb + q)
      = (⟨(dt + (NewIDGen tb sb qb ep).epoch) * 1000000⟩, s, q) := by
  have hsb63 : sb ≤ 63 := by omega
  have hqb63 : qb ≤ 63 := by omega
  obtain ⟨hl, hu, hr0, hr1⟩ := packed_bounds hsum htb hd0 hd1 hs0 hs1 hq0 hq1
  have hWid : wrap64 (dt * 2 ^ (sb + qb) + s * 2 ^ qb + q)
      = dt * 2 ^ (sb + qb) + s * 2 ^ qb + q := wrap64_eq_self hl hu
  have hidt : Int.fdiv (dt * 2 ^ (sb + qb) + s * 2 ^ qb + q) (2 ^ (sb + qb)) = dt := by
    have h : dt * 2 ^ (sb + qb) + s * 2 ^ qb + q
        = dt * 2 ^ (sb + qb) + (s * 2 ^ qb + q) := by ring
    rw [h]; exact fdiv_decompose dt _ _ hr0 hr1
  have e1 : sar64 (dt * 2 ^ (sb + qb) + s * 2 ^ qb + q) (sb + qb) = dt := by
    rw [sar64, hWid, hidt]
  have hms : wrap64 (dt + (NewIDGen tb sb qb ep).epoch)
      = dt + (NewIDGen tb sb qb ep).epoch := wrap64_eq_self hms0 hms1
  have hidq : Int.fdiv (dt * 2 ^ (sb + qb) + s * 2 ^ qb + q) (2 ^ qb)
      = dt * 2 ^ sb + s := by
    have h : dt * 2 ^ (sb + qb) + s * 2 ^ qb + q
        = (dt * 2 ^ sb + s) * 2 ^ qb + q := by rw [pow_add]; ring
    rw [h]; exact fdiv_decompose _ _ _ hq0 hq1
  have e2 : and64 (sar64 (dt * 2 ^ (sb + qb) + s * 2 ^ qb + q) qb)
      (NewIDGen tb sb qb ep).shardMask = s := by
    rw [sar64, hWid, hidq, newIDGen_shardMask tb qb ep hsb63, and64_mask _ hsb63,
      add_comm, Int.add_mul_emod_self]
    exact Int.emod_eq_of_lt hs0 hs1
  have e3 : and64 (dt * 2 ^ (sb + qb) + s * 2 ^ qb + q)
      (NewIDGen tb sb qb ep).seqMask = q := by
    rw [newIDGen_seqMask tb sb ep hqb63, and64_mask _ hqb63]
    have h : dt * 2 ^ (sb + qb) + s * 2 ^ qb + q
        = q + (dt * 2 ^ sb + s) * 2 ^ qb := by rw [pow_add]; ring
    rw [h, Int.add_mul_emod_self]
    exact Int.emod_eq_of_lt hq0 hq1
  have e4 : ∀ ms : Int, goUnix (Int.tdiv ms 1000)
      ((ms - Int.tdiv ms 1000 * 1000) * 1000000) = ⟨ms * 1000000⟩ := by
    intro ms; unfold goUnix; congr 1; ring
  unfold SplitID
  dsimp only
  rw [newIDGen_shardBits, newIDGen_seqBits, e1, hms, e2, e3, e4]

/-- C1 (amended).  For every bit split timeBits+shardBits+seqBits = 64 with
at least one time bit, every shard in [0, 2^shardBits), every sequence in
[0, 2^seqBits), and every int64-representable instant that is at least the
generator's minimum time AND lies inside the representable window (its
millisecond offset from the epoch fits in timeBits signed bits),
SplitID(MakeID(t, s, q)) returns s exactly, q exactly, and t truncated to
millisecond precision.  The window's upper bound is the amendment: beyond
epoch + 2^(timeBits-1) milliseconds the packed time field wraps. -/
theorem C1_idgen_roundtrip (tb sb qb : Nat) (ep : GoTime) (s q : Int)
    (tm : GoTime) (hsum : tb + sb + qb = 64) (htb : 1 ≤ tb)
    (hs0 : 0 ≤ s) (hs1 : s < 2 ^ sb) (hq0 : 0 ≤ q) (hq1 : q < 2 ^ qb)
    (htm0 : -(2 ^ 63) ≤ tm.nanos) (htm1 : tm.nanos < 2 ^ 63)
    (hmin : ¬ timeBefore tm (NewIDGen tb sb qb ep).minTime)
    (hd0 : -(2 ^ (tb - 1)) ≤ goMillis tm - (NewIDGen tb sb qb ep).epoch)
    (hd1 : goMillis tm - (NewIDGen tb sb qb ep).epoch < 2 ^ (tb - 1)) :
    SplitID (NewIDGen tb sb qb ep) (MakeID (NewIDGen tb sb qb ep) tm s q)
      = (⟨Int.tdiv tm.nanos 1000000 * 1000000⟩, s, q) := by
  have heq : goMillis tm - (NewIDGen tb sb qb ep).epoch
      + (NewIDGen tb sb qb ep).epoch = goMillis tm := by ring
  have hgm : goMillis tm = Int.tdiv tm.nanos 1000000 := by
    unfold goMillis unixNano; rw [wrap64_eq_self htm0 htm1]
  have hb := goMillis_bound tm
  have hms0 : -(2 ^ 63) ≤ goMillis tm - (NewIDGen tb sb qb ep).epoch
      + (NewIDGen tb sb qb ep).epoch := by rw [heq]; omega
  have hms1 : goMillis tm - (NewIDGen tb sb qb ep).epoch
      + (NewIDGen tb sb qb ep).epoch < 2 ^ 63 := by rw [heq]; omega
  rw [makeID_eq ep hsum htb hs0 hs1 hq0 hq1 hmin hd0 hd1,
    splitID_eq ep hsum htb hd0 hd1 hs0 hs1 hq0 hq1 hms0 hms1, heq, hgm]

/-- Witness for C1: the default 41/11/12 generator round-trips shard 5 and
sequence 7 at the epoch instant. -/
theorem C1_idgen_roundtrip_witness :
    SplitID DefaultIDGen (MakeID DefaultIDGen goEpoch 5 7)
      = (⟨Int.tdiv goEpoch.nanos 1000000 * 1000000⟩, 5, 7) :=
  C1_idgen_roundtrip 41 11 12 goEpoch 5 7 goEpoch (by decide) (by decide)
    (by decide) (by decide) (by decide) (by decide) (by decide) (by decide)
    (by decide) (by decide) (by decide)

/-- Counterexample to C1 as stated: with the default 41/11/12 split the
instant epoch + 2^40 milliseconds is at least the generator's minimum
representable time, s = 0 and q = 0 are in range, yet decoding the encoded
id does not recover the triple: the time field wrapped. -/
theorem C1_counterexample :
    ¬ timeBefore (⟨(1262304000000 + 2 ^ 40) * 1000000⟩ : GoTime)
        DefaultIDGen.minTime
    ∧ SplitID DefaultIDGen
        (MakeID DefaultIDGen (⟨(1262304000000 + 2 ^ 40) * 1000000⟩ : GoTime) 0 0)
      ≠ (⟨(1262304000000 + 2 ^ 40) * 1000000⟩, 0, 0) := by decide

theorem toBits_or64 (x y : Int) : toBits (or64 x y) = toBits x ||| toBits y := by
  rw [or64, toBits_ofBits (Nat.or_lt_two_pow (toBits_lt x) (toBits_lt y))]

theorem toBits_shl64 (x : Int) (k : Nat) :
    toBits (shl64 x k) = (toBits x <<< k) % 2 ^ 64 := by
  have hc : (((toBits x <<< k) % 2 ^ 64 : Nat) : Int) = (x * 2 ^ k) % 2 ^ 64 := by
    rw [Int.natCast_mod, Nat.shiftLeft_eq, Nat.cast_mul, toBits_cast, Int.natCast_pow]
    norm_num
    conv_lhs => rw [Int.mul_emod]
    conv_rhs => rw [Int.mul_emod]
    rw [Int.emod_emod_of_dvd _ dvd_rfl]
  have h2 : ((toBits (shl64 x k) : Nat) : Int) = (x * 2 ^ k) % 2 ^ 64 := by
    rw [toBits_cast, shl64, wrap64_emod]
  exact_mod_cast h2.trans hc.symm

/-- The encoding formula exactly as claim C2 states it: the shard argument
masked with shardMask = 2^shardBits - 1 and the sequence masked with
seqMask = 2^seqBits - 1 before placement, fields combined with
two's-complement wrapping, and the clamp taken below
epoch - 2^(timeBits-1) milliseconds. -/
def makeIDClaimed (tb sb qb : Nat) (ep tm : GoTime) (shard seq : Int) : Int :=
  let epochMillis := Int.tdiv (wrap64 ep.nanos) 1000000
  if tm.nanos < ep.nanos - 2 ^ (tb - 1) * 1000000 then -(2 ^ 63)
  else
    or64 (or64
      (shl64 (wrap64 (Int.tdiv (wrap64 tm.nanos) 1000000 - epochMillis)) (sb + qb))
      (shl64 (and64 shard ((2 : Int) ^ sb - 1)) qb))
      (and64 seq ((2 : Int) ^ qb - 1))

/-- The encoding formula with C2's amendment: the shard is NOT masked — it
is shifted directly so out-of-range shard values spill into the time field
— and the sequence is reduced with Go's truncated remainder by
seqMask + 1.  Stated over the raw bit patterns of the three fields so the
comparison with the Int-level source definition is meaningful. -/
def makeIDAmendedRef (g : IDGen) (tm : GoTime) (shard seq : Int) : Int :=
  if timeBefore tm g.minTime then -(2 ^ 63)
  else
    let dtPat : Nat :=
      (toBits (wrap64 (Int.tdiv (unixNano tm) 1000000 - g.epoch))
        <<< (g.shardBits + g.seqBits)) % 2 ^ 64
    let shPat : Nat := (toBits shard <<< g.seqBits) % 2 ^ 64
    let sqPat : Nat := toBits (Int.tmod seq (wrap64 (g.seqMask + 1)))
    ofBits (dtPat ||| shPat ||| sqPat)

/-- C2 (amended).  MakeID equals the amended reference formula for every
generator configuration and every input (no shard masking; truncated
remainder on the sequence; clamp below the generator's stored minimum
time), and whenever 1 ≤ timeBits ≤ 44 the stored minimum time equals
epoch - 2^(timeBits-1) milliseconds as the claim's parenthetical says:
up to that width the duration 2^(timeBits-1) milliseconds still fits in
int64 nanoseconds. -/
theorem C2_makeID_reference (tb sb qb : Nat) (ep : GoTime)
    (hsum : tb + sb + qb = 64) :
    (∀ (tm : GoTime) (shard seq : Int),
        MakeID (NewIDGen tb sb qb ep) tm shard seq
          = makeIDAmendedRef (NewIDGen tb sb qb ep) tm shard seq)
    ∧ (1 ≤ tb → tb ≤ 44 →
        (NewIDGen tb sb qb ep).minTime = ⟨ep.nanos - 2 ^ (tb - 1) * 1000000⟩) := by
  constructor
  · intro tm shard seq
    unfold MakeID makeIDAmendedRef
    by_cases h : timeBefore tm (NewIDGen tb sb qb ep).minTime
    · rw [if_pos h, if_pos h]
    · rw [if_neg h, if_neg h]
      dsimp only
      unfold or64
      rw [toBits_ofBits (Nat.or_lt_two_pow (toBits_lt _) (toBits_lt _)),
        toBits_shl64, toBits_shl64]
  · intro htb1 htb44
    have hne : tb ≠ 0 := by omega
    have hp1 : (2 : Int) ^ (tb - 1) ≤ 2 ^ 43 := by
      exact_mod_cast Nat.pow_le_pow_right (by norm_num) (show tb - 1 ≤ 43 by omega)
    have hp0 : (0 : Int) < 2 ^ (tb - 1) := by positivity
    have hs1 : shl64 1 (tb - 1) = 2 ^ (tb - 1) := by
      rw [shl64, one_mul, wrap64_eq_self (by omega) (by omega)]
    show GoTime.mk (ep.nanos
        - wrap64 ((if tb = 0 then 0 else shl64 1 (tb - 1)) * 1000000)) = _
    rw [if_neg hne, hs1, wrap64_eq_self (by omega) (by omega)]

/-- Witness for C2: the amended reference formula agrees with MakeID on
the default generator at the epoch for the out-of-range shard 2048. -/
theorem C2_makeID_reference_witness :
    MakeID DefaultIDGen goEpoch 2048 0
      = makeIDAmendedRef DefaultIDGen goEpoch 2048 0 :=
  (C2_makeID_reference 41 11 12 goEpoch (by decide)).1 goEpoch 2048 0

/-- Counterexample to C2 as stated: with the default generator, at the
epoch instant, shard argument 2048 and sequence 0, MakeID returns 8388608
(the unmasked shard spilled one bit into the time field) while the claimed
formula, which masks the shard with shardMask first, returns 0. -/
theorem C2_counterexample :
    MakeID DefaultIDGen goEpoch 2048 0 = 8388608
    ∧ makeIDClaimed 41 11 12 goEpoch goEpoch 2048 0 = 0 := by decide

/-- C3 (amended).  Identifiers are strictly ordered by millisecond-distinct
times for arbitrary in-range shard and sequence values, provided both
instants are at least the generator's minimum time and lie inside the
representable window (the amendment: beyond the window the time field
wraps and the order breaks). -/
theorem C3_makeID_monotone (tb sb qb : Nat) (ep : GoTime)
    (hsum : tb + sb + qb = 64) (htb : 1 ≤ tb) (s1 q1 s2 q2 : Int)
    (t1 t2 : GoTime)
    (hs10 : 0 ≤ s1) (hs11 : s1 < 2 ^ sb) (hq10 : 0 ≤ q1) (hq11 : q1 < 2 ^ qb)
    (hs20 : 0 ≤ s2) (hs21 : s2 < 2 ^ sb) (hq20 : 0 ≤ q2) (hq21 : q2 < 2 ^ qb)
    (hmin1 : ¬ timeBefore t1 (NewIDGen tb sb qb ep).minTime)
    (hmin2 : ¬ timeBefore t2 (NewIDGen tb sb qb ep).minTime)
    (hd10 : -(2 ^ (tb - 1)) ≤ goMillis t1 - (NewIDGen tb sb qb ep).epoch)
    (hd11 : goMillis t1 - (NewIDGen tb sb qb ep).epoch < 2 ^ (tb - 1))
    (hd20 : -(2 ^ (tb - 1)) ≤ goMillis t2 - (NewIDGen tb sb qb ep).epoch)
    (hd21 : goMillis t2 - (NewIDGen tb sb qb ep).epoch < 2 ^ (tb - 1))
    (hlt : goMillis t1 < goMillis t2) :
    MakeID (NewIDGen tb sb qb ep) t1 s1 q1
      < MakeID (NewIDGen tb sb qb ep) t2 s2 q2 := by
  rw [makeID_eq ep hsum htb hs10 hs11 hq10 hq11 hmin1 hd10 hd11,
    makeID_eq ep hsum htb hs20 hs21 hq20 hq21 hmin2 hd20 hd21]
  obtain ⟨_, _, hr10, hr11⟩ := packed_bounds hsum htb hd10 hd11 hs10 hs11 hq10 hq11
  obtain ⟨_, _, hr20, _⟩ := packed_bounds hsum htb hd20 hd21 hs20 hs21 hq20 hq21
  have hKpos : (0 : Int) < 2 ^ (sb + qb) := by positivity
  have hstep : goMillis t1 - (NewIDGen tb sb qb ep).epoch + 1
      ≤ goMillis t2 - (NewIDGen tb sb qb ep).epoch := by omega
  nlinarith [mul_le_mul_of_nonneg_right hstep (le_of_lt hKpos)]

/-- Witness for C3: one millisecond after the epoch beats the epoch, even
comparing the largest shard/sequence at the earlier time against the
smallest at the later time. -/
theorem C3_makeID_monotone_witness :
    MakeID DefaultIDGen goEpoch 2047 4095
      < MakeID DefaultIDGen ⟨1262304001 * 1000000000⟩ 0 0 :=
  C3_makeID_monotone 41 11 12 goEpoch (by decide) (by decide) 2047 4095 0 0
    goEpoch ⟨1262304001 * 1000000000⟩ (by decide) (by decide) (by decide)
    (by decide) (by decide) (by decide) (by decide) (by decide) (by decide)
    (by decide) (by decide) (by decide) (by decide) (by decide) (by decide)

/-- Counterexample to C3 as stated: both instants are at least the
generator's minimum time and millisecond-distinct with t1 earlier, the
shard and sequence values are in range, yet the identifier encoded at the
later time is smaller — its time field wrapped past the sign bit. -/
theorem C3_counterexample :
    goMillis (⟨1262304000000 * 1000000⟩ : GoTime)
      < goMillis (⟨(1262304000000 + 2 ^ 40) * 1000000⟩ : GoTime)
    ∧ ¬ timeBefore (⟨1262304000000 * 1000000⟩ : GoTime) DefaultIDGen.minTime
    ∧ ¬ timeBefore (⟨(1262304000000 + 2 ^ 40) * 1000000⟩ : GoTime)
        DefaultIDGen.minTime
    ∧ ¬ (MakeID DefaultIDGen (⟨1262304000000 * 1000000⟩ : GoTime) 0 0
        < MakeID DefaultIDGen
            (⟨(1262304000000 + 2 ^ 40) * 1000000⟩ : GoTime) 0 0) := by decide

/-- Go x % (seqMask+1) of a non-negative value is Euclidean reduction by
2^k, also at width 63 where the divisor wraps to the negative minimum. -/
theorem tmod_wrap_pow_emod {x : Int} {k : Nat} (hk : k ≤ 63) (h0 : 0 ≤ x) :
    Int.tmod x (wrap64 (2 ^ k)) = x % 2 ^ k := by
  rcases Nat.lt_or_ge k 63 with h | h
  · have hlt : (2 : Int) ^ k < 2 ^ 63 := by
      have h2 : (2 : Int) ^ k ≤ 2 ^ 62 := by
        exact_mod_cast Nat.pow_le_pow_right (by norm_num) (by omega)
      have : (2 : Int) ^ 62 < 2 ^ 63 := by norm_num
      omega
    have h0k : (0 : Int) < 2 ^ k := by positivity
    rw [wrap64_eq_self (by omega) hlt]
    exact Int.tmod_eq_emod h0 (by positivity)
  · have hk63 : k = 63 := by omega
    subst hk63
    have hw : wrap64 ((2 : Int) ^ 63) = -(2 ^ 63) := by decide
    rw [hw, Int.tmod_neg]
    exact Int.tmod_eq_emod h0 (by positivity)

/-- Go a % NumShards leaves the residue class of a modulo 2^k unchanged. -/
theorem tmod_wrap_emod (a : Int) {k : Nat} (hk : k ≤ 63) :
    Int.tmod a (wrap64 (2 ^ k)) % 2 ^ k = a % 2 ^ k := by
  have hdvd : ((2 : Int) ^ k) ∣ wrap64 (2 ^ k) := by
    rcases Nat.lt_or_ge k 63 with h | h
    · have hlt : (2 : Int) ^ k < 2 ^ 63 := by
        have h2 : (2 : Int) ^ k ≤ 2 ^ 62 := by
          exact_mod_cast Nat.pow_le_pow_right (by norm_num) (by omega)
        have : (2 : Int) ^ 62 < 2 ^ 63 := by norm_num
        omega
      have h0k : (0 : Int) < 2 ^ k := by positivity
      rw [wrap64_eq_self (by omega) hlt]
    · have hk63 : k = 63 := by omega
      subst hk63
      have hw : wrap64 ((2 : Int) ^ 63) = -(2 ^ 63) := by decide
      rw [hw]
      exact dvd_neg.mpr dvd_rfl
  obtain ⟨c, hc⟩ := hdvd
  rw [Int.tmod_def, hc, mul_assoc, sub_eq_add_neg, ← Int.mul_neg,
    Int.add_mul_emod_self_left]

theorem numShards_eq {sb : Nat} (tb qb : Nat) (ep : GoTime) (hsb : sb ≤ 63) :
    NumShards (NewIDGen tb sb qb ep) = wrap64 (2 ^ sb) := by
  unfold NumShards
  rw [newIDGen_shardMask tb qb ep hsb, sub_add_cancel]

/-- The low shardBits+seqBits bits of any non-clamped MakeID result encode
exactly the shard residue and the sequence residue, whatever the time is
(even when the time field wraps). -/
theorem makeID_low_bits (tb sb qb : Nat) (ep : GoTime)
    (hsum : tb + sb + qb = 64) (htb : 1 ≤ tb) (shard seq : Int)
    (hq0 : 0 ≤ seq) {t : GoTime}
    (hmin : ¬ timeBefore t (NewIDGen tb sb qb ep).minTime) :
    toBits (MakeID (NewIDGen tb sb qb ep) t shard seq) % 2 ^ (sb + qb)
      = (shard % 2 ^ sb).toNat * 2 ^ qb + (seq % 2 ^ qb).toNat := by
  have hqb63 : qb ≤ 63 := by omega
  have hsb63 : sb ≤ 63 := by omega
  have hK64 : sb + qb ≤ 64 := by omega
  have hq2 : (0 : Int) < 2 ^ qb := by positivity
  have hm0 : 0 ≤ seq % 2 ^ qb := Int.emod_nonneg _ (by positivity)
  have hm1 : seq % 2 ^ qb < 2 ^ qb := Int.emod_lt_of_pos _ hq2
  have hqle : (2 : Int) ^ qb ≤ 2 ^ 63 := by
    exact_mod_cast Nat.pow_le_pow_right (by norm_num) hqb63
  unfold MakeID
  rw [if_neg hmin]
  dsimp only
  rw [newIDGen_shardBits, newIDGen_seqBits]
  have e5 : Int.tmod seq (wrap64 ((NewIDGen tb sb qb ep).seqMask + 1))
      = seq % 2 ^ qb := by
    rw [newIDGen_seqMask tb sb ep hqb63, sub_add_cancel]
    exact tmod_wrap_pow_emod hqb63 hq0
  rw [e5, toBits_or64, toBits_or64, nat_lor_mod_two_pow, nat_lor_mod_two_pow,
    @shl64_low_bits _ (sb + qb) hK64, Nat.zero_or]
  have eS : toBits (shl64 shard qb) % 2 ^ (sb + qb)
      = (shard % 2 ^ sb).toNat * 2 ^ qb := by
    have h1 : ((toBits (shl64 shard qb) % 2 ^ (sb + qb) : Nat) : Int)
        = (shard % 2 ^ sb) * 2 ^ qb := by
      rw [toBits_mod_pow _ hK64, shl64,
        ← Int.emod_emod_of_dvd _ (pow_dvd_pow 2 hK64), wrap64_emod,
        Int.emod_emod_of_dvd _ (pow_dvd_pow 2 hK64), pow_add, mul_comm shard,
        mul_comm ((2 : Int) ^ sb), Int.mul_emod_mul_of_pos _ _ hq2, mul_comm]
    have h2 : (((shard % 2 ^ sb).toNat * 2 ^ qb : Nat) : Int)
        = (shard % 2 ^ sb) * 2 ^ qb := by
      push_cast [Int.toNat_of_nonneg (Int.emod_nonneg shard
        (show (2 : Int) ^ sb ≠ 0 by positivity))]
      ring
    exact_mod_cast h1.trans h2.symm
  rw [eS]
  have hb1 : ((2 ^ qb : Nat) : Int) = (2 : Int) ^ qb := by push_cast; ring
  have hKle : (2 : Nat) ^ qb ≤ 2 ^ (sb + qb) :=
    Nat.pow_le_pow_right (by norm_num) (by omega)
  have hvnlt : (seq % 2 ^ qb).toNat < 2 ^ qb := by omega
  have eM : toBits (seq % 2 ^ qb) % 2 ^ (sb + qb) = (seq % 2 ^ qb).toNat := by
    have hvn : toBits (seq % 2 ^ qb) = (seq % 2 ^ qb).toNat := by
      unfold toBits; omega
    rw [hvn]
    exact Nat.mod_eq_of_lt (lt_of_lt_of_le hvnlt hKle)
  rw [eM]
  exact nat_lor_eq_add (Nat.mul_mod_left _ _) hvnlt

theorem nat_digit_inj {x1 x2 y1 y2 B : Nat} (hB : 0 < B) (h1 : y1 < B)
    (h2 : y2 < B) (h : x1 * B + y1 = x2 * B + y2) : x1 = x2 := by
  have d1 : (x1 * B + y1) / B = x1 := by
    rw [mul_comm, Nat.mul_add_div hB, Nat.div_eq_of_lt h1, Nat.add_zero]
  have d2 : (x2 * B + y2) / B = x2 := by
    rw [mul_comm, Nat.mul_add_div hB, Nat.div_eq_of_lt h2, Nat.add_zero]
  rw [← d1, ← d2, h]

/-- C4 (amended).  Two ShardIDGen generators built over the same generator
configuration for shard numbers in different residue classes modulo the
shard count never return equal identifiers, for any call times at or above
the generator's minimum time and any call counts below 2^63 (beyond which
the int64 sequence counter itself would wrap). -/
theorem C4_generators_no_collision (tb sb qb : Nat) (ep : GoTime)
    (hsum : tb + sb + qb = 64) (htb : 1 ≤ tb) (a b : Int)
    (hab : a % 2 ^ sb ≠ b % 2 ^ sb) (i j : Nat)
    (hi : (i : Int) < 2 ^ 63) (hj : (j : Int) < 2 ^ 63) (t u : GoTime)
    (ht : ¬ timeBefore t (NewIDGen tb sb qb ep).minTime)
    (hu : ¬ timeBefore u (NewIDGen tb sb qb ep).minTime) :
    nthNextID (NewShardIDGen a (NewIDGen tb sb qb ep)) i t
      ≠ nthNextID (NewShardIDGen b (NewIDGen tb sb qb ep)) j u := by
  intro hEq
  have hsb63 : sb ≤ 63 := by omega
  have hqb63 : qb ≤ 63 := by omega
  have hi0 : (0 : Int) ≤ (i : Int) := by positivity
  have hj0 : (0 : Int) ≤ (j : Int) := by positivity
  have hwi : wrap64 (i : Int) = (i : Int) := wrap64_eq_self (by omega) hi
  have hwj : wrap64 (j : Int) = (j : Int) := wrap64_eq_self (by omega) hj
  have h1 := makeID_low_bits tb sb qb ep hsum htb
    (Int.tmod a (NumShards (NewIDGen tb sb qb ep))) (i : Int) hi0 ht
  have h2 := makeID_low_bits tb sb qb ep hsum htb
    (Int.tmod b (NumShards (NewIDGen tb sb qb ep))) (j : Int) hj0 hu
  have hEq2 : toBits (MakeID (NewIDGen tb sb qb ep) t
        (Int.tmod a (NumShards (NewIDGen tb sb qb ep))) (i : Int)) % 2 ^ (sb + qb)
      = toBits (MakeID (NewIDGen tb sb qb ep) u
        (Int.tmod b (NumShards (NewIDGen tb sb qb ep))) (j : Int)) % 2 ^ (sb + qb) := by
    have : MakeID (NewIDGen tb sb qb ep) t
          (Int.tmod a (NumShards (NewIDGen tb sb qb ep))) (wrap64 (i : Int))
        = MakeID (NewIDGen tb sb qb ep) u
          (Int.tmod b (NumShards (NewIDGen tb sb qb ep))) (wrap64 (j : Int)) := hEq
    rw [hwi, hwj] at this
    rw [this]
  rw [h1, h2] at hEq2
  have hra : Int.tmod a (NumShards (NewIDGen tb sb qb ep)) % 2 ^ sb
      = a % 2 ^ sb := by
    rw [numShards_eq tb qb ep hsb63]
    exact tmod_wrap_emod a hsb63
  have hrb : Int.tmod b (NumShards (NewIDGen tb sb qb ep)) % 2 ^ sb
      = b % 2 ^ sb := by
    rw [numShards_eq tb qb ep hsb63]
    exact tmod_wrap_emod b hsb63
  rw [hra, hrb] at hEq2
  have hq2 : (0 : Int) < 2 ^ qb := by positivity
  have hb1 : ((2 ^ qb : Nat) : Int) = (2 : Int) ^ qb := by push_cast; ring
  have hy1 : ((i : Int) % 2 ^ qb).toNat < 2 ^ qb := by
    have := Int.emod_lt_of_pos (i : Int) hq2
    have := Int.emod_nonneg (i : Int) (show (2 : Int) ^ qb ≠ 0 by positivity)
    omega
  have hy2 : ((j : Int) % 2 ^ qb).toNat < 2 ^ qb := by
    have := Int.emod_lt_of_pos (j : Int) hq2
    have := Int.emod_nonneg (j : Int) (show (2 : Int) ^ qb ≠ 0 by positivity)
    omega
  have hx := nat_digit_inj (Nat.pos_pow_of_pos qb (by norm_num)) hy1 hy2 hEq2
  have ha0 : 0 ≤ a % 2 ^ sb :=
    Int.emod_nonneg a (show (2 : Int) ^ sb ≠ 0 by positivity)
  have hb0 : 0 ≤ b % 2 ^ sb :=
    Int.emod_nonneg b (show (2 : Int) ^ sb ≠ 0 by positivity)
  omega

/-- Witness for C4: the generators for shards 0 and 1 return different
identifiers on their first calls at the epoch. -/
theorem C4_generators_no_collision_witness :
    nthNextID (NewShardIDGen 0 DefaultIDGen) 0 goEpoch
      ≠ nthNextID (NewShardIDGen 1 DefaultIDGen) 0 goEpoch :=
  C4_generators_no_collision 41 11 12 goEpoch (by decide) (by decide) 0 1
    (by decide) 0 0 (by decide) (by decide) goEpoch goEpoch (by decide)
    (by decide)

/-- Counterexample to C4 as stated: the shard numbers 0 and 2048 are
different, yet the two generators return the same identifier on their
first calls at the epoch instant, because 2048 is reduced modulo the
2048-shard address space to shard 0. -/
theorem C4_counterexample :
    (0 : Int) ≠ 2048
    ∧ nthNextID (NewShardIDGen 0 DefaultIDGen) 0 goEpoch
      = nthNextID (NewShardIDGen 2048 DefaultIDGen) 0 goEpoch := by decide

/-- Go unixMicrosecond(tm): tm.Unix()*1e6 + int64(tm.Nanosecond())/1e3 with
int64 wrapping; Unix() is the floor second count, Nanosecond() the
non-negative in-second remainder. -/
def unixMicro (tm : GoTime) : Int :=
  wrap64 (Int.fdiv tm.nanos 1000000000 * 1000000
    + Int.tdiv (tm.nanos % 1000000000) 1000)

/-- Big-endian byte i of a uint64 pattern (binary.BigEndian.PutUint64). -/
def beByte (v i : Nat) : Nat := v / 2 ^ (8 * (7 - i)) % 256

/-- NewUUID(shardId, tm) from uuid.go with the 8 random bytes that
uuidRand.Read places into positions 8..15 made explicit as rnd: the shard
id is first reduced with Go's truncated remainder by
DefaultIdGen.NumShards(); bytes 0-7 hold the big-endian microsecond
timestamp; byte 8 keeps its top five random bits (the clear-mask is &^ 0x7)
and receives the top 3 bits of the shard id in its low 3 bits; byte 9 is
the low 8 shard bits; bytes 10-15 stay random. -/
def NewUUID (shardId : Int) (tm : GoTime) (rnd : Fin 8 → Nat) : List Nat :=
  let sid := Int.tmod shardId (NumShards DefaultIDGen)
  let pat := toBits (unixMicro tm)
  [beByte pat 0, beByte pat 1, beByte pat 2, beByte pat 3,
   beByte pat 4, beByte pat 5, beByte pat 6, beByte pat 7,
   (rnd 0 &&& 248) ||| (toBits (sar64 sid 8) % 256),
   toBits sid % 256,
   rnd 2, rnd 3, rnd 4, rnd 5, rnd 6, rnd 7]

/-- UUID.Split() from uuid.go: big-endian read of bytes 0-7 as the
microsecond timestamp, shard id from the low 3 bits of byte 8 (mask 0x7)
shifted up 8 places, or-ed with byte 9. -/
def SplitUUID (u : List Nat) : Int × GoTime :=
  let n := ofBits (u.getD 0 0 * 2 ^ 56 + u.getD 1 0 * 2 ^ 48
    + u.getD 2 0 * 2 ^ 40 + u.getD 3 0 * 2 ^ 32 + u.getD 4 0 * 2 ^ 24
    + u.getD 5 0 * 2 ^ 16 + u.getD 6 0 * 2 ^ 8 + u.getD 7 0)
  let shardId := or64 (shl64 (and64 ((u.getD 8 0 : Nat) : Int) 7) 8)
    ((u.getD 9 0 : Nat) : Int)
  let secs := Int.tdiv n 1000000
  (shardId, goUnix secs ((n - secs * 1000000) * 1000))

/-- Byte 8 as claim C9 describes it: the TOP 3 bits of byte 8 overwritten
with the top 3 bits of the 11-bit shard number, 5 random bits left in the
LOW positions. -/
def uuidClaimedByte8 (shardId : Int) (r : Nat) : Nat :=
  (r &&& 31) |||
    ((toBits (sar64 (Int.tmod shardId (NumShards DefaultIDGen)) 8) % 256) <<< 5)

theorem numShards_default : NumShards DefaultIDGen = 2048 := by decide

set_option maxRecDepth 4096 in
theorem land_248 : ∀ r : Fin 256, r.1 &&& 248 = 8 * (r.1 / 8) := by decide

/-- C9 (amended).  NewUUID writes the big-endian microsecond timestamp into
bytes 0-7 and embeds the 11-bit shard number (reduced modulo the shard
count) by overwriting the LOW 3 bits of byte 8 and all of byte 9, leaving
5 random bits in the TOP of byte 8 and bytes 10-15 fully random; Split
reads the shard number back from exactly those positions, ignoring the
random bytes.  (The amendment swaps the claimed top/low 3-bit position in
byte 8.) -/
theorem C9_uuid_layout (shardId : Int) (tm : GoTime) (rnd : Fin 8 → Nat)
    (hs : 0 ≤ shardId) (hr : ∀ i, rnd i < 256) :
    (∀ i : Fin 8, (NewUUID shardId tm rnd).getD i.1 0
        = beByte (toBits (unixMicro tm)) i.1)
    ∧ (NewUUID shardId tm rnd).getD 8 0
        = 8 * (rnd 0 / 8) + (shardId % 2048).toNat / 256
    ∧ (NewUUID shardId tm rnd).getD 9 0 = (shardId % 2048).toNat % 256
    ∧ (∀ k : Fin 6, (NewUUID shardId tm rnd).getD (10 + k.1) 0
        = rnd ⟨2 + k.1, by omega⟩)
    ∧ (SplitUUID (NewUUID shardId tm rnd)).1 = shardId % 2048 := by
  have hm0 : 0 ≤ shardId % 2048 := Int.emod_nonneg _ (by norm_num)
  have hm1 : shardId % 2048 < 2048 := Int.emod_lt_of_pos _ (by norm_num)
  have hsid : Int.tmod shardId (NumShards DefaultIDGen) = shardId % 2048 := by
    rw [numShards_default]; exact Int.tmod_eq_emod hs (by norm_num)
  have h248 : rnd 0 &&& 248 = 8 * (rnd 0 / 8) := land_248 ⟨rnd 0, hr 0⟩
  have htop : toBits (sar64 (Int.tmod shardId (NumShards DefaultIDGen)) 8) % 256
      = (shardId % 2048).toNat / 256 := by
    rw [hsid, sar64, wrap64_eq_self (by omega) (by omega),
      Int.fdiv_eq_ediv _ (by norm_num)]
    unfold toBits
    omega
  have hb8 : (NewUUID shardId tm rnd).getD 8 0
      = 8 * (rnd 0 / 8) + (shardId % 2048).toNat / 256 := by
    show (rnd 0 &&& 248) |||
        (toBits (sar64 (Int.tmod shardId (NumShards DefaultIDGen)) 8) % 256) = _
    rw [h248, htop]
    have ha : (8 * (rnd 0 / 8)) % 2 ^ 3 = 0 := by omega
    have hbv : (shardId % 2048).toNat / 256 < 2 ^ 3 := by omega
    exact nat_lor_eq_add ha hbv
  have hb9 : (NewUUID shardId tm rnd).getD 9 0 = (shardId % 2048).toNat % 256 := by
    show toBits (Int.tmod shardId (NumShards DefaultIDGen)) % 256 = _
    rw [hsid]; unfold toBits; omega
  refine ⟨?_, hb8, hb9, ?_, ?_⟩
  · intro i; fin_cases i <;> rfl
  · intro k; fin_cases k <;> rfl
  · show or64 (shl64 (and64 (((NewUUID shardId tm rnd).getD 8 0 : Nat) : Int) 7) 8)
        (((NewUUID shardId tm rnd).getD 9 0 : Nat) : Int) = shardId % 2048
    rw [hb8, hb9]
    have hdl : (shardId % 2048).toNat / 256 < 8 := by omega
    have h7 : ((2 : Int) ^ 3 - 1) = 7 := by norm_num
    have hand : and64 ((8 * (rnd 0 / 8) + (shardId % 2048).toNat / 256 : Nat) : Int) 7
        = (((shardId % 2048).toNat / 256 : Nat) : Int) := by
      rw [← h7, and64_mask _ (by norm_num)]
      push_cast
      omega
    rw [hand]
    have hshl : shl64 (((shardId % 2048).toNat / 256 : Nat) : Int) 8
        = (((shardId % 2048).toNat / 256 : Nat) : Int) * 256 := by
      rw [shl64, wrap64_eq_self (by push_cast; omega) (by push_cast; omega)]
      norm_num
    rw [hshl]
    have hx : toBits ((((shardId % 2048).toNat / 256 : Nat) : Int) * 256) % 2 ^ 8
        = 0 := by
      unfold toBits
      omega
    have hor : or64 ((((shardId % 2048).toNat / 256 : Nat) : Int) * 256)
        (((shardId % 2048).toNat % 256 : Nat) : Int)
        = wrap64 ((((shardId % 2048).toNat / 256 : Nat) : Int) * 256
          + (((shardId % 2048).toNat % 256 : Nat) : Int)) :=
      or64_eq_add 8 (by norm_num) hx (by exact_mod_cast Nat.zero_le _)
        (by push_cast; omega)
    rw [hor, wrap64_eq_self (by push_cast; omega) (by push_cast; omega)]
    push_cast
    omega

/-- Witness for C9: shard 1234 at the epoch with specific random bytes. -/
theorem C9_uuid_layout_witness :
    (NewUUID 1234 goEpoch (fun _ => 171)).getD 8 0
        = 8 * (171 / 8) + ((1234 : Int) % 2048).toNat / 256
    ∧ (SplitUUID (NewUUID 1234 goEpoch (fun _ => 171))).1 = (1234 : Int) % 2048 := by
  obtain ⟨_, h8, _, _, h5⟩ :=
    C9_uuid_layout 1234 goEpoch (fun _ => 171) (by decide)
      (by intro i; show (171 : Nat) < 256; decide)
  exact ⟨h8, h5⟩

/-- Counterexample to C9 as stated: for shard 1792 (top 3 bits 111) and a
zero random byte, the code writes 7 into byte 8 — the shard's top 3 bits
sit in the LOW bit positions — whereas the claimed layout, which overwrites
the TOP 3 bits of byte 8, would give 224. -/
theorem C9_counterexample :
    (NewUUID 1792 goEpoch (fun _ => 0)).getD 8 0 = 7
    ∧ uuidClaimedByte8 1792 0 = 224 ∧ (7 : Nat) ≠ 224 := by decide

/-- Go encoding/hex fromHexChar: the bytes of 0-9, a-f, A-F. -/
def isHexDigit (c : Nat) : Bool :=
  (48 ≤ c && c ≤ 57) || (97 ≤ c && c ≤ 102) || (65 ≤ c && c ≤ 70)

/-- Numeric value of a hex digit byte. -/
def hexVal (c : Nat) : Nat :=
  if 48 ≤ c ∧ c ≤ 57 then c - 48
  else if 97 ≤ c ∧ c ≤ 102 then c - 97 + 10
  else c - 65 + 10

/-- Go encoding/hex Decode over a byte region: consumes pairs of hex
digits, failing on the first byte that is not a hex digit (an odd trailing
byte is also an error). -/
def hexDecode : List Nat → Option (List Nat)
  | [] => some []
  | hi :: lo :: rest =>
      if isHexDigit hi && isHexDigit lo then
        (hexDecode rest).map (fun t => (hexVal hi * 16 + hexVal lo) :: t)
      else none
  | [_] => none

/-- ParseUUID from uuid.go: reject any input whose length is not 36, then
hex-decode the five regions b[0:8], b[9:13], b[14:18], b[19:23], b[24:36]
in order; the bytes at positions 8, 13, 18 and 23 are never read. -/
def ParseUUID (b : List Nat) : Option (List Nat) :=
  if b.length ≠ 36 then none
  else
    match hexDecode (b.take 8), hexDecode ((b.drop 9).take 4),
        hexDecode ((b.drop 14).take 4), hexDecode ((b.drop 19).take 4),
        hexDecode (b.drop 24) with
    | some u1, some u2, some u3, some u4, some u5 =>
        some (u1 ++ u2 ++ u3 ++ u4 ++ u5)
    | _, _, _, _, _ => none

/-- hexDecode succeeds on an even-length region exactly when every byte of
the region is a hex digit. -/
theorem hexDecode_isSome (s : List Nat) (hpar : s.length % 2 = 0) :
    (hexDecode s).isSome ↔ ∀ c ∈ s, isHexDigit c := by
  have H : ∀ n (s : List Nat), s.length ≤ n → s.length % 2 = 0 →
      ((hexDecode s).isSome ↔ ∀ c ∈ s, isHexDigit c) := by
    intro n
    induction n with
    | zero =>
      intro s hs _
      have : s = [] := List.eq_nil_of_length_eq_zero (by omega)
      subst this
      simp [hexDecode]
    | succ n ih =>
      intro s hs hpar
      match s with
      | [] => simp [hexDecode]
      | [x] => simp at hpar
      | hi :: lo :: rest =>
        show (if isHexDigit hi && isHexDigit lo then
            (hexDecode rest).map (fun t => (hexVal hi * 16 + hexVal lo) :: t)
          else none).isSome ↔ _
        by_cases hc : isHexDigit hi && isHexDigit lo
        · rw [if_pos hc, Option.isSome_map',
            ih rest (by simp at hs ⊢; omega) (by simp at hpar ⊢; omega)]
          simp only [List.mem_cons]
          have hc2 : isHexDigit hi = true ∧ isHexDigit lo = true := by
            simpa using hc
          constructor
          · intro hrest c hcm
            rcases hcm with rfl | rfl | hcm
            · exact hc2.1
            · exact hc2.2
            · exact hrest c hcm
          · intro hall c hcm
            exact hall c (Or.inr (Or.inr hcm))
        · rw [if_neg hc]
          simp only [Option.isSome_none, Bool.false_eq_true, false_iff]
          intro hall
          exact hc (by simp [hall hi (List.mem_cons_self hi _),
            hall lo (List.mem_cons_of_mem hi (List.mem_cons_self lo rest))])
  exact H s.length s le_rfl hpar

/-- Membership in a contiguous slice, phrased through indexed reads of the
underlying list. -/
theorem seg_forall (b : List Nat) (a n : Nat) (h : a + n ≤ b.length)
    (p : Nat → Bool) :
    (∀ c ∈ (b.drop a).take n, p c) ↔
      ∀ i, a ≤ i → i < a + n → p (b.getD i 0) := by
  have hlen : ((b.drop a).take n).length = n := by
    rw [List.length_take, List.length_drop]; omega
  constructor
  · intro hall i h1 h2
    have hib : i < b.length := by omega
    have hj : i - a < ((b.drop a).take n).length := by omega
    have hel : ((b.drop a).take n)[i - a] = b.getD i 0 := by
      rw [List.getElem_take, List.getElem_drop]
      rw [List.getD_eq_getElem?_getD, List.getElem?_eq_getElem (by omega)]
      congr 1
      omega
    rw [← hel]
    exact hall _ (List.getElem_mem hj)
  · intro hall c hc
    obtain ⟨j, hj, rfl⟩ := List.mem_iff_getElem.mp hc
    have hel : ((b.drop a).take n)[j] = b.getD (a + j) 0 := by
      rw [List.getElem_take, List.getElem_drop,
        List.getD_eq_getElem?_getD, List.getElem?_eq_getElem (by omega)]
      rfl
    rw [hel]
    exact hall (a + j) (by omega) (by omega)

/-- C10.  ParseUUID rejects every input whose length is not exactly 36
bytes, and for every 36-byte input it succeeds if and only if the five
regions b[0:8], b[9:13], b[14:18], b[19:23], b[24:36] consist of hex
digits; the separator bytes at positions 8, 13, 18 and 23 are never
constrained, so a 36-byte input with non-hyphen characters there still
parses successfully. -/
theorem C10_parseUUID (b : List Nat) :
    (ParseUUID b).isSome ↔ b.length = 36 ∧ ∀ i,
      (i < 8 ∨ (9 ≤ i ∧ i < 13) ∨ (14 ≤ i ∧ i < 18) ∨ (19 ≤ i ∧ i < 23)
        ∨ (24 ≤ i ∧ i < 36)) → isHexDigit (b.getD i 0) := by
  by_cases hl : b.length = 36
  · unfold ParseUUID
    rw [if_neg (by omega)]
    have hmatch : ∀ (o1 o2 o3 o4 o5 : Option (List Nat)),
        (match o1, o2, o3, o4, o5 with
          | some u1, some u2, some u3, some u4, some u5 =>
              some (u1 ++ u2 ++ u3 ++ u4 ++ u5)
          | _, _, _, _, _ => none).isSome
        ↔ (o1.isSome ∧ o2.isSome ∧ o3.isSome ∧ o4.isSome ∧ o5.isSome) := by
      intro o1 o2 o3 o4 o5
      rcases o1 <;> rcases o2 <;> rcases o3 <;> rcases o4 <;> rcases o5 <;> simp
    rw [hmatch]
    have e0 : b.take 8 = (b.drop 0).take 8 := by rw [List.drop_zero]
    have e24 : hexDecode (b.drop 24) = hexDecode ((b.drop 24).take 12) := by
      congr 1
      rw [show (12 : Nat) = (b.drop 24).length by rw [List.length_drop, hl],
        List.take_length]
    rw [e0, e24]
    rw [hexDecode_isSome _ (by rw [List.length_take, List.length_drop]; omega),
      hexDecode_isSome _ (by rw [List.length_take, List.length_drop]; omega),
      hexDecode_isSome _ (by rw [List.length_take, List.length_drop]; omega),
      hexDecode_isSome _ (by rw [List.length_take, List.length_drop]; omega),
      hexDecode_isSome _ (by rw [List.length_take, List.length_drop]; omega)]
    rw [seg_forall b 0 8 (by omega), seg_forall b 9 4 (by omega),
      seg_forall b 14 4 (by omega), seg_forall b 19 4 (by omega),
      seg_forall b 24 12 (by omega)]
    constructor
    · rintro ⟨a1, a2, a3, a4, a5⟩
      refine ⟨hl, ?_⟩
      intro i hi
      rcases hi with h | h | h | h | h
      · exact a1 i (by omega) (by omega)
      · exact a2 i (by omega) (by omega)
      · exact a3 i (by omega) (by omega)
      · exact a4 i (by omega) (by omega)
      · exact a5 i (by omega) (by omega)
    · rintro ⟨_, hall⟩
      refine ⟨?_, ?_, ?_, ?_, ?_⟩
      · intro i h1 h2; exact hall i (by omega)
      · intro i h1 h2; exact hall i (by omega)
      · intro i h1 h2; exact hall i (by omega)
      · intro i h1 h2; exact hall i (by omega)
      · intro i h1 h2; exact hall i (by omega)
  · unfold ParseUUID
    rw [if_pos hl]
    simp [hl]

/-- A physical database server handle.  Servers are compared by pointer
identity in the source (a set keyed by the handle pointer, and Options()
pointer comparison during fan-out);
the model names each distinct handle by a number. -/
abbrev DBHandle := Nat

/-- The cluster as built by NewClusterWithGen: the ordered, possibly
duplicated server list and the shard count. -/
structure Cluster where
  dbs : List DBHandle
  nshards : Nat

/-- The dbSet/servers loop of Cluster.init: walk the server list in order,
appending each handle not seen before. -/
def initServers : List DBHandle → List DBHandle → List DBHandle
  | [], acc => acc
  | db :: rest, acc =>
      if db ∈ acc then initServers rest acc
      else initServers rest (acc ++ [db])

/-- cl.servers after Cluster.init. -/
def clServers (cl : Cluster) : List DBHandle := initServers cl.dbs []

/-- The shardInfo records built by Cluster.init: shard id paired with the
owning index into the original (non-deduplicated) server list. -/
def shardInfos (cl : Cluster) : List (Nat × Nat) :=
  (List.range cl.nshards).map (fun i => (i, i % cl.dbs.length))

/-- Cluster.Shards(db) for a non-nil db: the shards whose owner entry in
the original list is the given handle, in the order init created them. -/
def clShardsOn (cl : Cluster) (db : DBHandle) : List Nat :=
  (shardInfos cl).filterMap
    (fun s => if cl.dbs.getD s.2 0 = db then some s.1 else none)

/-- Duplicates removed keeping the first occurrence of each element. -/
def firstOccDedup : List DBHandle → List DBHandle
  | [] => []
  | a :: t => a :: firstOccDedup (t.filter (fun x => x ≠ a))
termination_by l => l.length
decreasing_by
  simp only [List.length_cons]
  exact Nat.lt_succ_of_le (List.length_filter_le _ t)

theorem firstOccDedup_cons (a : DBHandle) (t : List DBHandle) :
    firstOccDedup (a :: t)
      = a :: firstOccDedup (t.filter (fun x => x ≠ a)) := by
  rw [firstOccDedup]

theorem initServers_eq (l : List DBHandle) : ∀ acc : List DBHandle,
    initServers l acc
      = acc ++ firstOccDedup (l.filter (fun x => decide (x ∉ acc))) := by
  induction l with
  | nil => intro acc; simp [initServers, firstOccDedup]
  | cons db rest ih =>
    intro acc
    show (if db ∈ acc then initServers rest acc
        else initServers rest (acc ++ [db])) = _
    by_cases h : db ∈ acc
    · rw [if_pos h, ih, List.filter_cons]
      simp [h]
    · rw [if_neg h, ih, List.filter_cons,
        if_pos (show decide (db ∉ acc) = true by simp [h]), firstOccDedup_cons]
      have hpred : (rest.filter (fun x => decide (x ∉ acc ++ [db])))
          = (rest.filter (fun x => decide (x ∉ acc))).filter
              (fun x => x ≠ db) := by
        rw [List.filter_filter]
        apply List.filter_congr
        intro x _
        by_cases h1 : x = db <;> by_cases h2 : x ∈ acc <;>
          simp [h1, h2, List.mem_append]
      rw [hpred, List.append_assoc, List.singleton_append]

theorem clServers_eq (cl : Cluster) : clServers cl = firstOccDedup cl.dbs := by
  unfold clServers
  rw [initServers_eq]
  simp

theorem filterMap_if_eq_filter (p : Nat → Prop) [DecidablePred p]
    (l : List Nat) :
    l.filterMap (fun i => if p i then some i else none)
      = l.filter (fun i => decide (p i)) := by
  induction l with
  | nil => rfl
  | cons a t ih =>
    by_cases h : p a <;>
      simp [List.filterMap_cons, List.filter_cons, h, ih]

/-- C5.  Cluster construction: the unique-server list is the original list
with duplicates removed preserving first occurrence; shard i carries owner
index i mod len(dbs) computed against the original list; Shards(db)
returns exactly the shards owned by db in increasing shard order; and the
duplicated-list example [A,B,A,B] with 4 shards behaves as the claim
says. -/
theorem C5_cluster_init (cl : Cluster) (hdb : cl.dbs ≠ []) :
    clServers cl = firstOccDedup cl.dbs
    ∧ (∀ i, i < cl.nshards →
        (shardInfos cl).getD i (0, 0) = (i, i % cl.dbs.length))
    ∧ (∀ db, clShardsOn cl db
        = (List.range cl.nshards).filter
            (fun i => decide (cl.dbs.getD (i % cl.dbs.length) 0 = db)))
    ∧ (clServers ⟨[7, 8, 7, 8], 4⟩ = [7, 8]
        ∧ clShardsOn ⟨[7, 8, 7, 8], 4⟩ 7 = [0, 2]
        ∧ clShardsOn ⟨[7, 8, 7, 8], 4⟩ 8 = [1, 3]) := by
  refine ⟨clServers_eq cl, ?_, ?_, by decide⟩
  · intro i hi
    unfold shardInfos
    rw [List.getD_eq_getElem?_getD, List.getElem?_eq_getElem (by simpa using hi)]
    simp
  · intro db
    unfold clShardsOn shardInfos
    rw [List.filterMap_map]
    rw [← filterMap_if_eq_filter]
    congr 1

/-- Witness for C5 on a concrete valid cluster: three servers with one
duplicate handle, six shards. -/
theorem C5_cluster_init_witness :
    clServers ⟨[3, 4, 3], 6⟩ = firstOccDedup [3, 4, 3]
    ∧ clShardsOn ⟨[3, 4, 3], 6⟩ 3
      = (List.range 6).filter
          (fun i => decide (([3, 4, 3] : List Nat).getD (i % 3) 0 = 3)) := by
  obtain ⟨h1, _, h3, _⟩ := C5_cluster_init ⟨[3, 4, 3], 6⟩ (by decide)
  exact ⟨h1, h3 3⟩

/-- Cluster.SubCluster(number, size): clamp size to the shard count, take
step = nshards / size, window index = (uint64(number) mod step) * size,
and reference the contiguous run of shardInfo records of length size
starting there. -/
def subClusterIds (cl : Cluster) (number : Int) (size : Nat) : List Nat :=
  let size2 := if size > cl.nshards then cl.nshards else size
  let step := cl.nshards / size2
  let clusterId := (toBits number % step) * size2
  (List.range size2).map
    (fun i => ((shardInfos cl).getD (clusterId + i) (0, 0)).1)

theorem shardInfos_getD (cl : Cluster) {i : Nat} (hi : i < cl.nshards) :
    (shardInfos cl).getD i (0, 0) = (i, i % cl.dbs.length) := by
  unfold shardInfos
  rw [List.getD_eq_getElem?_getD, List.getElem?_eq_getElem (by simpa using hi)]
  simp

/-- C6.  SubCluster(k, size) references exactly the contiguous slice of
the parent's shard ordering that starts at index (k mod step) * size and
has length size, where size is first clamped to the shard count and
step = totalShards / size; the selection is periodic in k with period
step (the wrap the claim describes); and the 8-shard examples hold. -/
theorem C6_subCluster (cl : Cluster) (number : Int) (size : Nat)
    (hn : 0 ≤ number) (hn2 : number < 2 ^ 62) (hsz : 1 ≤ size)
    (hns : 1 ≤ cl.nshards) (hns2 : cl.nshards < 2 ^ 62) :
    subClusterIds cl number size
      = ((List.range cl.nshards).drop
          ((number.toNat % (cl.nshards / min size cl.nshards))
            * min size cl.nshards)).take (min size cl.nshards)
    ∧ subClusterIds cl
        (number + (cl.nshards / min size cl.nshards : Nat)) size
      = subClusterIds cl number size
    ∧ (subClusterIds ⟨[0, 1, 2, 3], 8⟩ 0 2 = [0, 1]
        ∧ subClusterIds ⟨[0, 1, 2, 3], 8⟩ 2 2 = [4, 5]
        ∧ subClusterIds ⟨[0, 1, 2, 3], 8⟩ 4 2 = [0, 1]) := by
  have hm : (if size > cl.nshards then cl.nshards else size)
      = min size cl.nshards := by split <;> omega
  have hm1 : 1 ≤ min size cl.nshards := by omega
  have hmn : min size cl.nshards ≤ cl.nshards := by omega
  have hstep1 : 1 ≤ cl.nshards / min size cl.nshards :=
    Nat.one_le_div_iff hm1 |>.mpr hmn
  have hbits : toBits number = number.toNat := by
    unfold toBits
    omega
  have hwin : number.toNat % (cl.nshards / min size cl.nshards)
        * min size cl.nshards + min size cl.nshards ≤ cl.nshards := by
    have h1 : number.toNat % (cl.nshards / min size cl.nshards)
        ≤ cl.nshards / min size cl.nshards - 1 := by
      have := Nat.mod_lt number.toNat (show 0 < cl.nshards / min size cl.nshards by omega)
      omega
    have h2 : (cl.nshards / min size cl.nshards - 1) * min size cl.nshards
        + min size cl.nshards ≤ cl.nshards := by
      have h3 : (cl.nshards / min size cl.nshards - 1) * min size cl.nshards
          + min size cl.nshards
          = (cl.nshards / min size cl.nshards) * min size cl.nshards := by
        rw [Nat.sub_one_mul]
        have h4 : min size cl.nshards
            ≤ cl.nshards / min size cl.nshards * min size cl.nshards :=
          Nat.le_mul_of_pos_left _ (by omega)
        omega
      rw [h3]
      exact Nat.div_mul_le_self _ _
    calc number.toNat % (cl.nshards / min size cl.nshards) * min size cl.nshards
          + min size cl.nshards
        ≤ (cl.nshards / min size cl.nshards - 1) * min size cl.nshards
          + min size cl.nshards :=
          Nat.add_le_add_right (Nat.mul_le_mul_right _ h1) _
      _ ≤ cl.nshards := h2
  refine ⟨?_, ?_, by decide⟩
  · unfold subClusterIds
    rw [hm, hbits]
    apply List.ext_getElem
    · simp only [List.length_map, List.length_range, List.length_take,
        List.length_drop]
      omega
    · intro j h1 h2
      simp only [List.length_map, List.length_range] at h1
      rw [List.getElem_map, List.getElem_range, List.getElem_take,
        List.getElem_drop, List.getElem_range,
        shardInfos_getD cl (by omega)]
  · have hb2 : toBits (number + (cl.nshards / min size cl.nshards : Nat))
        = number.toNat + cl.nshards / min size cl.nshards := by
      have hd : (cl.nshards / min size cl.nshards : Nat)
          ≤ cl.nshards := Nat.div_le_self _ _
      unfold toBits
      omega
    unfold subClusterIds
    dsimp only
    rw [hm, hbits, hb2, Nat.add_mod_right]

/-- NewClusterWithGen's validation chain, one check per source panic, in
source order; a none result models a construction panic, a some result a
successfully built cluster. -/
def NewClusterWithGen (dbs : List DBHandle) (nshards : Int) (g : IDGen) :
    Option Cluster :=
  if dbs.length = 0 then none
  else if nshards = 0 then none
  else if (dbs.length : Int) > NumShards g ∨ nshards > NumShards g then none
  else if nshards < (dbs.length : Int) then none
  else if Int.tmod nshards (dbs.length : Int) ≠ 0 then none
  else some ⟨dbs, nshards.toNat⟩

/-- C7.  Cluster construction fails exactly when the server list is empty,
or the shard count is zero, or either count exceeds the generator's shard
address space, or there are fewer shards than servers, or the shard count
is not divisible by the server count; on every other input it succeeds and
returns a cluster. -/
theorem C7_newCluster_validation (dbs : List DBHandle) (nshards : Int)
    (g : IDGen) :
    NewClusterWithGen dbs nshards g = none
      ↔ (dbs = [] ∨ nshards = 0
          ∨ (dbs.length : Int) > NumShards g ∨ nshards > NumShards g
          ∨ nshards < (dbs.length : Int)
          ∨ Int.tmod nshards (dbs.length : Int) ≠ 0) := by
  unfold NewClusterWithGen
  have hnil : dbs.length = 0 ↔ dbs = [] := List.length_eq_zero
  split_ifs with h1 h2 h3 h4 h5 <;> simp_all <;> tauto

/-- First non-nil result over a list, in iteration order: the shape of
both the per-server firstErr variable and the capacity-1 error channel
(which surfaces one error and drops the rest). -/
def foldFirst (g : α → Option β) (l : List α) : Option β :=
  l.foldl (fun acc y => if acc.isSome then acc else g y) none

theorem foldFirst_stable (g : α → Option β) (l : List α) (x : β) :
    l.foldl (fun acc y => if acc.isSome then acc else g y) (some x) = some x := by
  induction l with
  | nil => rfl
  | cons a t ih => simpa using ih

theorem foldFirst_none {g : α → Option β} :
    ∀ {l : List α}, (∀ y ∈ l, g y = none) → foldFirst g l = none := by
  intro l
  induction l with
  | nil => intro _; rfl
  | cons a t ih =>
    intro h
    show List.foldl _ (if (none : Option β).isSome then none else g a) t = none
    rw [show (if (none : Option β).isSome then none else g a) = g a from rfl,
      h a (List.mem_cons_self a t)]
    exact ih (fun y hy => h y (List.mem_cons_of_mem a hy))

theorem foldFirst_unique {g : α → Option β} {x : α} {e : β} :
    ∀ {l : List α}, x ∈ l → g x = some e →
      (∀ y ∈ l, y ≠ x → g y = none) → foldFirst g l = some e := by
  intro l
  induction l with
  | nil => intro h; exact absurd h (List.not_mem_nil x)
  | cons a t ih =>
    intro hmem hgx hother
    show List.foldl _ (if (none : Option β).isSome then none else g a) t = some e
    rw [show (if (none : Option β).isSome then none else g a) = g a from rfl]
    by_cases ha : a = x
    · rw [ha, hgx]
      exact foldFirst_stable g t e
    · rw [hother a (List.mem_cons_self a t) ha]
      have hxt : x ∈ t := by
        rcases List.mem_cons.mp hmem with h | h
        · exact absurd h.symm ha
        · exact h
      exact ih hxt hgx (fun y hy => hother y (List.mem_cons_of_mem a hy))

theorem mem_firstOccDedup : ∀ (l : List DBHandle) (x : DBHandle),
    x ∈ firstOccDedup l ↔ x ∈ l := by
  have H : ∀ (n : Nat) (l : List DBHandle) (x : DBHandle), l.length ≤ n →
      (x ∈ firstOccDedup l ↔ x ∈ l) := by
    intro n
    induction n with
    | zero =>
      intro l x hl
      have : l = [] := List.eq_nil_of_length_eq_zero (by omega)
      subst this
      simp [firstOccDedup]
    | succ n ih =>
      intro l x hl
      match l with
      | [] => simp [firstOccDedup]
      | a :: t =>
        rw [firstOccDedup_cons]
        simp only [List.mem_cons]
        rw [ih (t.filter (fun y => y ≠ a)) x
          (le_trans (List.length_filter_le _ t) (by simpa using hl))]
        by_cases hx : x = a
        · simp [hx]
        · simp [List.mem_filter, hx]
  intro l x
  exact H l.length l x le_rfl

theorem firstOccDedup_nodup : ∀ l : List DBHandle, (firstOccDedup l).Nodup := by
  have H : ∀ (n : Nat) (l : List DBHandle), l.length ≤ n →
      (firstOccDedup l).Nodup := by
    intro n
    induction n with
    | zero =>
      intro l hl
      have : l = [] := List.eq_nil_of_length_eq_zero (by omega)
      subst this
      simp [firstOccDedup]
    | succ n ih =>
      intro l hl
      match l with
      | [] => simp [firstOccDedup]
      | a :: t =>
        rw [firstOccDedup_cons]
        refine List.nodup_cons.mpr ⟨?_, ih _
          (le_trans (List.length_filter_le _ t) (by simpa using hl))⟩
        intro hmem
        rw [mem_firstOccDedup] at hmem
        simp [List.mem_filter] at hmem
  intro l
  exact H l.length l le_rfl

theorem clServers_nodup (cl : Cluster) : (clServers cl).Nodup := by
  rw [clServers_eq]
  exact firstOccDedup_nodup cl.dbs

theorem mem_clServers (cl : Cluster) (x : DBHandle) :
    x ∈ clServers cl ↔ x ∈ cl.dbs := by
  rw [clServers_eq]
  exact mem_firstOccDedup cl.dbs x

theorem clShardsOn_eq (cl : Cluster) (db : DBHandle) :
    clShardsOn cl db = (List.range cl.nshards).filter
      (fun i => decide (cl.dbs.getD (i % cl.dbs.length) 0 = db)) := by
  unfold clShardsOn shardInfos
  rw [List.filterMap_map, ← filterMap_if_eq_filter]
  congr 1

theorem mem_clShardsOn (cl : Cluster) (db : DBHandle) (j : Nat) :
    j ∈ clShardsOn cl db
      ↔ (j < cl.nshards ∧ cl.dbs.getD (j % cl.dbs.length) 0 = db) := by
  rw [clShardsOn_eq]
  simp [List.mem_filter, List.mem_range]

theorem count_flatMap_single {g : DBHandle → List Nat} {x : DBHandle} {j : Nat} :
    ∀ {l : List DBHandle}, l.Nodup → x ∈ l → (∀ y ∈ l, y ≠ x → j ∉ g y) →
      (l.flatMap g).count j = (g x).count j := by
  intro l
  induction l with
  | nil =>
    intro _ hx _
    exact absurd hx (List.not_mem_nil x)
  | cons a t ih =>
    intro hnd hx hother
    rw [List.flatMap_cons, List.count_append]
    obtain ⟨hna, hnt⟩ := List.nodup_cons.mp hnd
    by_cases ha : a = x
    · subst ha
      have hzero : (t.flatMap g).count j = 0 := by
        rw [List.count_eq_zero]
        intro hmem
        obtain ⟨y, hy, hjy⟩ := List.mem_flatMap.mp hmem
        exact hother y (List.mem_cons_of_mem a hy) (fun h => hna (h ▸ hy)) hjy
      rw [hzero]
      omega
    · have hza : (g a).count j = 0 := by
        rw [List.count_eq_zero]
        exact hother a (List.mem_cons_self a t) ha
      have hxt : x ∈ t := by
        rcases List.mem_cons.mp hx with h | h
        · exact absurd h.symm ha
        · exact h
      rw [hza, ih hnt hxt (fun y hy => hother y (List.mem_cons_of_mem a hy))]
      omega

/-- Cluster.ForEachShard with the callback's per-shard outcomes given by f:
first component the shards the callback is invoked on (grouped by unique
server, as the per-server tasks iterate them), second component the error
surfaced to the caller.  Concurrency across servers is serialized into
iteration order; with at most one failing callback the surfaced error does
not depend on that order. -/
def forEachShard (cl : Cluster) (f : Nat → Option Nat) :
    List Nat × Option Nat :=
  ((clServers cl).flatMap (fun db => clShardsOn cl db),
   foldFirst (fun db => foldFirst f (clShardsOn cl db)) (clServers cl))

/-- Cluster.ForEachNShards: same shard set and error aggregation as
ForEachShard; the n parameter only bounds in-flight callbacks per server
(the Go admission gate requires n at least 1, or the fan-out deadlocks),
so the sequential model does not depend on it. -/
def forEachNShards (cl : Cluster) (_ : Nat) (f : Nat → Option Nat) :
    List Nat × Option Nat :=
  ((clServers cl).flatMap (fun db => clShardsOn cl db),
   foldFirst (fun db => foldFirst f (clShardsOn cl db)) (clServers cl))

/-- C8.  If during a ForEachShard or ForEachNShards fan-out the callback
fails for exactly one shard and succeeds for all others, the overall call
returns that callback's error, and the callback is still invoked exactly
once for every shard of the cluster (no shard is skipped because another
shard's callback failed). -/
theorem C8_fanout_error (cl : Cluster) (f : Nat → Option Nat) (i0 e n : Nat)
    (hn : 1 ≤ n) (hdb : cl.dbs ≠ []) (hi : i0 < cl.nshards)
    (hf : f i0 = some e)
    (hothers : ∀ j, j < cl.nshards → j ≠ i0 → f j = none) :
    (forEachShard cl f).2 = some e
    ∧ (∀ j, j < cl.nshards → (forEachShard cl f).1.count j = 1)
    ∧ (∀ j ∈ (forEachShard cl f).1, j < cl.nshards)
    ∧ (forEachNShards cl n f).2 = some e
    ∧ (forEachNShards cl n f).1 = (forEachShard cl f).1 := by
  have hlen : 0 < cl.dbs.length := List.length_pos.mpr hdb
  have howner_mem : ∀ j : Nat, cl.dbs.getD (j % cl.dbs.length) 0 ∈ cl.dbs := by
    intro j
    have hjl : j % cl.dbs.length < cl.dbs.length := Nat.mod_lt _ hlen
    rw [List.getD_eq_getElem?_getD, List.getElem?_eq_getElem hjl]
    exact List.getElem_mem _
  have hserver_err : ∀ db ∈ clServers cl,
      db ≠ cl.dbs.getD (i0 % cl.dbs.length) 0 →
        foldFirst f (clShardsOn cl db) = none := by
    intro db _ hne
    apply foldFirst_none
    intro j hj
    rw [mem_clShardsOn] at hj
    refine hothers j hj.1 ?_
    intro hji
    exact hne (hji ▸ hj.2).symm
  have howner_err :
      foldFirst f (clShardsOn cl (cl.dbs.getD (i0 % cl.dbs.length) 0))
        = some e := by
    refine foldFirst_unique ((mem_clShardsOn cl _ i0).mpr ⟨hi, rfl⟩) hf ?_
    intro j hj hne
    rw [mem_clShardsOn] at hj
    exact hothers j hj.1 hne
  have herr : foldFirst (fun db => foldFirst f (clShardsOn cl db))
      (clServers cl) = some e := by
    refine foldFirst_unique
      ((mem_clServers cl _).mpr (howner_mem i0)) howner_err ?_
    intro y hy hne
    exact hserver_err y hy hne
  have hcount : ∀ j, j < cl.nshards →
      ((clServers cl).flatMap (fun db => clShardsOn cl db)).count j = 1 := by
    intro j hj
    rw [count_flatMap_single (clServers_nodup cl)
      ((mem_clServers cl _).mpr (howner_mem j)) ?side]
    case side =>
      intro y hy hne hjmem
      rw [mem_clShardsOn] at hjmem
      exact hne hjmem.2.symm
    rw [clShardsOn_eq]
    refine List.count_eq_one_of_mem
      (List.Nodup.filter _ (List.nodup_range cl.nshards)) ?_
    rw [← clShardsOn_eq, mem_clShardsOn]
    exact ⟨hj, rfl⟩
  have hmem2 : ∀ j ∈ (clServers cl).flatMap (fun db => clShardsOn cl db),
      j < cl.nshards := by
    intro j hjm
    obtain ⟨db, _, hj⟩ := List.mem_flatMap.mp hjm
    exact ((mem_clShardsOn cl db j).mp hj).1
  exact ⟨herr, hcount, hmem2, herr, rfl⟩

/-- Witness for C8: two servers, four shards, shard 2 failing with error
code 9. -/
theorem C8_fanout_error_witness :
    (forEachShard ⟨[5, 6], 4⟩ (fun j => if j = 2 then some 9 else none)).2
      = some 9
    ∧ (forEachShard ⟨[5, 6], 4⟩
        (fun j => if j = 2 then some 9 else none)).1.count 2 = 1 := by
  obtain ⟨h1, h2, _, _, _⟩ := C8_fanout_error ⟨[5, 6], 4⟩
    (fun j => if j = 2 then some 9 else none) 2 9 1 (by decide) (by decide)
    (by decide) (by decide) (by intro j h1 h2; simp [h2])
  exact ⟨h1, h2 2 (by decide)⟩

/-- Witness for C6: the 8-shard cluster, selector 2, window size 2. -/
theorem C6_subCluster_witness :
    subClusterIds ⟨[0, 1, 2, 3], 8⟩ 2 2
      = ((List.range 8).drop
          (((2 : Int).toNat % (8 / min 2 8)) * min 2 8)).take (min 2 8) :=
  (C6_subCluster ⟨[0, 1, 2, 3], 8⟩ 2 2 (by decide) (by decide) (by decide)
    (by decide) (by decide)).1
